import Mathlib

/-!
Shallow embedding of the crossbeam epoch-based reclamation subsystem
(`crossbeam-epoch/src/epoch.rs`, `sync/queue.rs`, `default.rs`,
`collector.rs`) and proofs about it.

Modelling conventions:
* `usize` is modelled as `Nat`; arithmetic that cannot overflow in the
  executions considered (indices, epochs) is plain `Nat` arithmetic, and
  `usize::max_value()` is the explicit constant `2 ^ 64 - 1`.
* A block's slot array (`[UnsafeCell<Slot<T>>; BLOCK_CAP]`, initialised
  with `mem::zeroed()`) is a `List (Option T)` of length `BLOCK_CAP`:
  `none` stands for a zeroed slot that was never written by a push,
  `some t` for a slot holding a pushed value `t`.
* The multi-producer CAS loop of `Queue::push` is embedded as a
  loop-iteration function `pushIter` covering all branches of the loop
  body; the single-producer (uncontended) execution, in which the
  index CAS always succeeds, is `push`.
* Destruction (`drop` of a slot's contents) is observable: the drop
  operations return the list of destroyed cells in destruction order.
-/

namespace Crossbeam

/-! ### epoch.rs -/

/-- `usize::max_value()` on a 64-bit target. -/
def USIZE_MAX : Nat := 2 ^ 64 - 1

/-- `Epoch` (epoch.rs): a wrapper around a `usize`. -/
structure Epoch where
  data : Nat
  deriving DecidableEq, Repr

/-- `Epoch::starting()`: `data = usize::max_value()`. -/
def Epoch.starting : Epoch := ⟨USIZE_MAX⟩

/-- `Epoch::zeroing()`: `data = 0`. -/
def Epoch.zeroing : Epoch := ⟨0⟩

/-- `Epoch::pinned()`: returns the same data. -/
def Epoch.pinned (e : Epoch) : Epoch := ⟨e.data⟩

/-- `Epoch::is_pinned()`: `data != usize::max_value()`. -/
def Epoch.is_pinned (e : Epoch) : Bool := e.data ≠ USIZE_MAX

/-- `Epoch::unpinned()`: the raw data. -/
def Epoch.unpinned (e : Epoch) : Nat := e.data

/-! ### sync/queue.rs : data model -/

/-- `BLOCK_CAP` (queue.rs line 24). -/
def BLOCK_CAP : Nat := 32

/-- A `Block<T>` (queue.rs): `start_index` plus `BLOCK_CAP` slots.  The
`next` pointer is represented by the position of the block in the
queue's block chain (the chain is the list of blocks reachable from
`head.block` through `next`; the last element of the list is the block
whose `next` is null). -/
structure Block (T : Type) where
  start_index : Nat
  slots : List (Option T)
  deriving DecidableEq, Repr

/-- `Block::new(start_index)` (queue.rs lines 46-55): all slots zeroed
(`mem::zeroed()`), i.e. never written. -/
def Block.new (T : Type) (start_index : Nat) : Block T :=
  ⟨start_index, List.replicate BLOCK_CAP none⟩

/-- A `Queue<T>` (queue.rs).  `blocks` is the chain of blocks from
`head.block` (the first element) to the block with null `next` (the
last element); in the executions modelled here `tail.block` always
points at the last element of the chain.  `tailIndex` is
`tail.index`; `head.index` is never read by any queue.rs operation and
is omitted. -/
structure Queue (T : Type) where
  blocks : List (Block T)
  tailIndex : Nat
  deriving DecidableEq, Repr

/-- `Queue::new()` (queue.rs lines 59-78): one zeroed block with
`start_index = 0`, both indices 0, head and tail pointing at it. -/
def Queue.new (T : Type) : Queue T := ⟨[Block.new T 0], 0⟩

/-! ### sync/queue.rs : push -/

/-- Result of one iteration of the retry loop in `Queue::push`
(queue.rs lines 130-188): either the push completed (`done`, with the
notification sent through the channel, if any), or the loop retries
from the possibly-updated queue state (`retry`). -/
inductive IterResult (T : Type) where
  | done (q : Queue T) (notif : Option Nat)
  | retry (q : Queue T)
  deriving DecidableEq, Repr

/-- The closure `install_next_block` (queue.rs lines 142-156): CAS the
tail block's `next` from null to a fresh block starting at
`tail.start_index + BLOCK_CAP`, then CAS `tail.block` forward.  In the
chain representation, when the loaded tail is the last block of the
chain (its `next` is null) this appends the fresh block; otherwise the
CAS on `next` fails and the winner's block is reused (chain already has
it), and the `tail.block` CAS is a no-op on the chain. -/
def installNextBlock (T : Type) (blocks : List (Block T)) (tailStart : Nat) :
    List (Block T) :=
  if (blocks.getLast?).all (fun b => b.start_index = tailStart) then
    blocks ++ [Block.new T (tailStart + BLOCK_CAP)]
  else
    blocks

/-- One iteration of the `Queue::push` retry loop (queue.rs lines
130-188), in the single-producer setting where the loaded tail block
is the last block of the chain and the index CAS succeeds whenever
attempted.  Branches:
* `offset < BLOCK_CAP` (line 159): CAS the tail index forward, write
  `t` into the reserved slot; if the slot was the block's last
  (line 177), install the successor block and send
  `new_index / BLOCK_CAP` through the channel; the push completes.
* `offset == BLOCK_CAP` (line 185): `install_next_block()` and retry.
* `offset > BLOCK_CAP`: no arm of the conditional applies; the
  iteration does nothing and the loop retries. -/
def pushIter {T : Type} (q : Queue T) (t : T) : IterResult T :=
  match q.blocks.getLast? with
  | none => .retry q
  | some tail =>
    let offset := q.tailIndex - tail.start_index
    let newIndex := q.tailIndex + 1
    if offset < BLOCK_CAP then
      let tail' : Block T := ⟨tail.start_index, tail.slots.set offset (some t)⟩
      let blocks' := q.blocks.dropLast ++ [tail']
      if offset + 1 = BLOCK_CAP then
        .done ⟨installNextBlock T blocks' tail.start_index, newIndex⟩
          (some (newIndex / BLOCK_CAP))
      else
        .done ⟨blocks', newIndex⟩ none
    else if offset = BLOCK_CAP then
      .retry ⟨installNextBlock T q.blocks tail.start_index, q.tailIndex⟩
    else
      .retry q

/-- `Queue::push` in the uncontended single-producer execution: the
first loop iteration completes (on every state reachable from
`Queue.new` by pushes, `offset < BLOCK_CAP` holds and the CAS
succeeds).  Returns the new queue state and the notification sent, if
any. -/
def push {T : Type} (q : Queue T) (t : T) : Queue T × Option Nat :=
  match pushIter q t with
  | .done q' n => (q', n)
  | .retry q' => (q', none)

/-- Push a list of values left to right, collecting the notifications
sent, in order. -/
def pushAll {T : Type} (q : Queue T) (ts : List T) : Queue T × List Nat :=
  match ts with
  | [] => (q, [])
  | t :: rest =>
    let (q', n) := push q t
    let (q'', ns) := pushAll q' rest
    (q'', n.toList ++ ns)

/-! ### sync/queue.rs : reclamation -/

/-- `Queue::drop_bags_per_block` (queue.rs lines 80-101): read all
`BLOCK_CAP` slots of the head block and destroy each one's contents,
then advance `head.block` to the head's `next` and free the vacated
block.  Returns the new state and the destroyed cells in destruction
order (`none` = a zeroed slot that was never written was destroyed).
On a state whose chain is empty the source would dereference null;
the model returns the state unchanged. -/
def drop_bags_per_block {T : Type} (q : Queue T) :
    Queue T × List (Option T) :=
  match q.blocks with
  | [] => (q, [])
  | head :: rest => (⟨rest, q.tailIndex⟩, head.slots)

/-- The loop of `Queue::drop_all_blocks` (queue.rs lines 103-127) on
the block chain: destroy all `BLOCK_CAP` slots of the head block; if
its `next` is null, stop (the last block is not freed); otherwise
advance head, free the block, and continue.  Returns the remaining
chain and the destroyed cells in order. -/
def dropAllBlocksChain {T : Type} :
    List (Block T) → List (Block T) × List (Option T)
  | [] => ([], [])
  | [b] => ([b], b.slots)
  | b :: b' :: rest =>
    let (r, d) := dropAllBlocksChain (b' :: rest)
    (r, b.slots ++ d)

/-- `Queue::drop_all_blocks` (queue.rs lines 103-127). -/
def drop_all_blocks {T : Type} (q : Queue T) : Queue T × List (Option T) :=
  let (r, d) := dropAllBlocksChain q.blocks
  (⟨r, q.tailIndex⟩, d)

/-- `impl Drop for Queue` (queue.rs lines 192-204): `drop_all_blocks`,
then free the remaining sentinel block (without destroying its slots
again).  Returns the destroyed cells of the whole teardown in order. -/
def queueDrop {T : Type} (q : Queue T) : List (Option T) :=
  (drop_all_blocks q).2

/-- The pushed values among a list of destroyed cells, in destruction
order (zeroed never-written slots filtered out). -/
def realCells {T : Type} (cells : List (Option T)) : List T :=
  cells.filterMap id

/-! ### Characterisation of the queue state after a sequence of pushes -/

/-- The slot array of a block holding exactly the values `chunk`
(written left to right from slot 0), the remaining slots zeroed. -/
def mkSlots {T : Type} (chunk : List T) : List (Option T) :=
  chunk.map some ++ List.replicate (BLOCK_CAP - chunk.length) none

/-- The block chain of a queue that has absorbed the pushes `ts`, the
first block starting at index `s`: full blocks for each complete chunk
of `BLOCK_CAP` values, then one final block holding the remaining
(possibly zero) values. -/
def mkBlocks {T : Type} (s : Nat) (ts : List T) : List (Block T) :=
  if ts.length < BLOCK_CAP then [⟨s, mkSlots ts⟩]
  else ⟨s, mkSlots (ts.take BLOCK_CAP)⟩ :: mkBlocks (s + BLOCK_CAP) (ts.drop BLOCK_CAP)
termination_by ts.length
decreasing_by
  simp only [List.length_drop]
  simp only [BLOCK_CAP] at *
  omega

theorem mkSlots_nil {T : Type} : mkSlots ([] : List T) = List.replicate BLOCK_CAP none := by
  simp [mkSlots]

theorem mkBlocks_nil {T : Type} (s : Nat) :
    mkBlocks s ([] : List T) = [⟨s, List.replicate BLOCK_CAP none⟩] := by
  rw [mkBlocks]
  simp [mkSlots, BLOCK_CAP]

theorem new_eq_mkBlocks (T : Type) : Queue.new T = ⟨mkBlocks 0 [], 0⟩ := by
  simp [Queue.new, Block.new, mkBlocks_nil]

theorem mkBlocks_ne_nil {T : Type} (s : Nat) (ts : List T) : mkBlocks s ts ≠ [] := by
  rw [mkBlocks]
  split <;> simp

theorem set_map_some_replicate {T : Type} (ts : List T) (t : T) (k : Nat) (h : 0 < k) :
    (ts.map some ++ List.replicate k none).set ts.length (some t) =
      (ts ++ [t]).map some ++ List.replicate (k - 1) none := by
  induction ts with
  | nil =>
    obtain ⟨k', rfl⟩ : ∃ k', k = k' + 1 := ⟨k - 1, by omega⟩
    simp [List.replicate_succ]
  | cons a rest ih =>
    simpa using ih

theorem mkSlots_set {T : Type} (ts : List T) (t : T) (h : ts.length < BLOCK_CAP) :
    (mkSlots ts).set ts.length (some t) = mkSlots (ts ++ [t]) := by
  have := set_map_some_replicate ts t (BLOCK_CAP - ts.length) (by omega)
  simp only [mkSlots, List.length_append, List.length_cons, List.length_nil]
  rw [this]
  congr 2

theorem installNextBlock_cons {T : Type} (B : Block T) (L : List (Block T)) (st : Nat)
    (h : L ≠ []) :
    installNextBlock T (B :: L) st = B :: installNextBlock T L st := by
  obtain ⟨b', L', rfl⟩ : ∃ b' L', L = b' :: L' := by
    cases L with
    | nil => exact absurd rfl h
    | cons b' L' => exact ⟨b', L', rfl⟩
  simp only [installNextBlock, List.getLast?_cons_cons, List.cons_append]
  split <;> rfl

theorem push_cons {T : Type} (B : Block T) (bs : List (Block T)) (i : Nat) (t : T)
    (h : bs ≠ []) :
    push ⟨B :: bs, i⟩ t =
      (⟨B :: (push ⟨bs, i⟩ t).1.blocks, (push ⟨bs, i⟩ t).1.tailIndex⟩,
       (push ⟨bs, i⟩ t).2) := by
  obtain ⟨b', bs', rfl⟩ : ∃ b' bs', bs = b' :: bs' := by
    cases bs with
    | nil => exact absurd rfl h
    | cons b' bs' => exact ⟨b', bs', rfl⟩
  simp only [push, pushIter, List.getLast?_cons_cons]
  cases hl : (b' :: bs').getLast? with
  | none => rfl
  | some tail =>
    simp only []
    by_cases h1 : i - tail.start_index < BLOCK_CAP
    · simp only [if_pos h1]
      by_cases h2 : i - tail.start_index + 1 = BLOCK_CAP
      · simp only [if_pos h2]
        rw [List.dropLast_cons₂, List.cons_append,
          installNextBlock_cons _ _ _ (by simp)]
      · simp only [if_neg h2]
        rw [List.dropLast_cons₂, List.cons_append]
    · simp only [if_neg h1]
      by_cases h2 : i - tail.start_index = BLOCK_CAP
      · simp only [if_pos h2]
        rw [installNextBlock_cons _ _ _ (by simp)]
      · simp only [if_neg h2]

theorem mkBlocks_small {T : Type} (s : Nat) (ts : List T) (h : ts.length < BLOCK_CAP) :
    mkBlocks s ts = [⟨s, mkSlots ts⟩] := by
  rw [mkBlocks, if_pos h]

theorem mkBlocks_big {T : Type} (s : Nat) (ts : List T) (h : ¬ ts.length < BLOCK_CAP) :
    mkBlocks s ts =
      ⟨s, mkSlots (ts.take BLOCK_CAP)⟩ :: mkBlocks (s + BLOCK_CAP) (ts.drop BLOCK_CAP) := by
  rw [mkBlocks, if_neg h]

/-- One uncontended push onto the canonical state after the pushes `ts`:
the value lands in the next free slot, and a notification with id
`new_index / BLOCK_CAP` is sent exactly when the push fills a block. -/
theorem push_mkBlocks {T : Type} (ts : List T) (s : Nat) (t : T) :
    push ⟨mkBlocks s ts, s + ts.length⟩ t =
      (⟨mkBlocks s (ts ++ [t]), s + ts.length + 1⟩,
       if (ts.length + 1) % BLOCK_CAP = 0 then some ((s + ts.length + 1) / BLOCK_CAP)
       else none) := by
  by_cases hlt : ts.length < BLOCK_CAP
  · rw [mkBlocks_small s ts hlt]
    have hoff : s + ts.length - s = ts.length := by omega
    by_cases h32 : ts.length + 1 = BLOCK_CAP
    · rw [mkBlocks_big s (ts ++ [t]) (by simp; omega)]
      rw [List.take_of_length_le (by simp; omega), List.drop_eq_nil_of_le (by simp; omega),
        mkBlocks_nil]
      simp only [push, pushIter, List.getLast?_singleton, hoff, if_pos hlt, if_pos h32,
        List.dropLast_single, List.nil_append, installNextBlock, List.getLast?_singleton,
        Option.all_some, mkSlots_set ts t hlt, Block.new]
      simp [h32, decide_eq_true_eq]
    · have hlt1 : (ts ++ [t]).length < BLOCK_CAP := by simp; omega
      rw [mkBlocks_small s (ts ++ [t]) hlt1]
      have hmod : ¬ (ts.length + 1) % BLOCK_CAP = 0 := by
        simp only [BLOCK_CAP] at *
        omega
      simp only [push, pushIter, List.getLast?_singleton, hoff, if_pos hlt, if_neg h32,
        List.dropLast_single, List.nil_append, mkSlots_set ts t hlt, if_neg hmod]
  · rw [mkBlocks_big s ts hlt]
    have hlen : 32 ≤ ts.length := by
      simp only [BLOCK_CAP] at hlt
      omega
    have hidx : s + ts.length = (s + BLOCK_CAP) + (ts.drop BLOCK_CAP).length := by
      simp only [List.length_drop, BLOCK_CAP] at *
      omega
    rw [push_cons _ _ _ _ (mkBlocks_ne_nil _ _), hidx,
      push_mkBlocks (ts.drop BLOCK_CAP) (s + BLOCK_CAP) t]
    rw [mkBlocks_big s (ts ++ [t]) (by simp; omega)]
    rw [List.take_append_of_le_length (by omega), List.drop_append_of_le_length (by omega)]
    have hmod : ((ts.drop BLOCK_CAP).length + 1) % BLOCK_CAP = (ts.length + 1) % BLOCK_CAP := by
      simp only [List.length_drop, BLOCK_CAP] at *
      omega
    have hidx2 : s + BLOCK_CAP + (ts.drop BLOCK_CAP).length + 1 = s + ts.length + 1 := by
      simp only [List.length_drop, BLOCK_CAP] at *
      omega
    simp only [hmod, hidx2]
termination_by ts.length
decreasing_by
  simp only [List.length_drop]
  simp only [BLOCK_CAP] at *
  omega

theorem pushAll_append {T : Type} (q : Queue T) (l1 l2 : List T) :
    pushAll q (l1 ++ l2) =
      ((pushAll (pushAll q l1).1 l2).1,
       (pushAll q l1).2 ++ (pushAll (pushAll q l1).1 l2).2) := by
  induction l1 generalizing q with
  | nil => simp [pushAll]
  | cons a rest ih =>
    simp only [List.cons_append, pushAll, List.append_eq, ih, List.append_assoc]

/-- The canonical run: pushing `ts` into a fresh queue yields the
canonical block chain for `ts` and one notification per filled block,
with ids `1, 2, ..., ts.length / BLOCK_CAP` in order. -/
theorem pushAll_new {T : Type} (ts : List T) :
    pushAll (Queue.new T) ts =
      (⟨mkBlocks 0 ts, ts.length⟩, (List.range (ts.length / BLOCK_CAP)).map (· + 1)) := by
  induction ts using List.reverseRecOn with
  | nil =>
    rw [new_eq_mkBlocks]
    simp [pushAll]
  | append_singleton ts t ih =>
    rw [pushAll_append, ih]
    have hpush := push_mkBlocks ts 0 t
    rw [Nat.zero_add] at hpush
    simp only [pushAll, hpush]
    by_cases hmod : (ts.length + 1) % BLOCK_CAP = 0
    · have hdiv : (ts.length + 1) / BLOCK_CAP = ts.length / BLOCK_CAP + 1 := by
        simp only [BLOCK_CAP] at *
        omega
      simp only [if_pos hmod, Option.toList_some, List.length_append, List.length_cons,
        List.length_nil, hdiv, List.range_succ, List.map_append, List.map_cons,
        List.map_nil, Nat.zero_add, List.append_nil]
    · have hdiv : (ts.length + 1) / BLOCK_CAP = ts.length / BLOCK_CAP := by
        simp only [BLOCK_CAP] at *
        omega
      simp only [if_neg hmod, Option.toList_none, List.length_append, List.length_cons,
        List.length_nil, hdiv, List.append_nil, Nat.zero_add]

/-! ### Teardown -/

theorem dropAllBlocksChain_destroyed {T : Type} (bs : List (Block T)) :
    (dropAllBlocksChain bs).2 = (bs.map (fun b => b.slots)).flatten := by
  induction bs with
  | nil => simp [dropAllBlocksChain]
  | cons b rest ih =>
    cases rest with
    | nil => simp [dropAllBlocksChain]
    | cons b' rest' =>
      simp only [dropAllBlocksChain, ih, List.map_cons, List.flatten_cons]

theorem realCells_mkSlots {T : Type} (c : List T) : realCells (mkSlots c) = c := by
  simp [realCells, mkSlots]

theorem realCells_append {T : Type} (a b : List (Option T)) :
    realCells (a ++ b) = realCells a ++ realCells b := by
  simp [realCells]

theorem realCells_mkBlocks {T : Type} (s : Nat) (ts : List T) :
    realCells (((mkBlocks s ts).map (fun b => b.slots)).flatten) = ts := by
  by_cases hlt : ts.length < BLOCK_CAP
  · rw [mkBlocks_small s ts hlt]
    simp [realCells_mkSlots]
  · rw [mkBlocks_big s ts hlt]
    simp only [List.map_cons, List.flatten_cons, realCells_append, realCells_mkSlots,
      realCells_mkBlocks (s + BLOCK_CAP) (ts.drop BLOCK_CAP), List.take_append_drop]
termination_by ts.length
decreasing_by
  simp only [List.length_drop]
  simp only [BLOCK_CAP] at *
  omega

/-- Full teardown of the queue after the pushes `ts` destroys exactly
the pushed values, in push order (ignoring the destroyed zeroed cells
of the final partial block). -/
theorem queueDrop_real {T : Type} (ts : List T) :
    realCells (queueDrop (pushAll (Queue.new T) ts).1) = ts := by
  rw [pushAll_new]
  simp only [queueDrop, drop_all_blocks, dropAllBlocksChain_destroyed]
  exact realCells_mkBlocks 0 ts

/-! ### default.rs : the reclamation driver -/

/-- `COLLECT_BLOCKS` (default.rs line 14). -/
def COLLECT_BLOCKS : Nat := 16

/-- The state of the driver loop in `default.rs` (lines 23-63):
`epoch` is the loop's epoch variable, `maxBlockId` the largest block id
seen, `array` the pending list of `(block count, epoch at boundary)`
entries (a `Cell<usize>` count and an epoch).  Two traces record the
driver's observable actions: `stores` the values passed to
`store_epoch` (in order), `waits` the targets passed to
`try_until_epoch` (in order), and `reclaimed` counts the
`drop_bags_per_block` calls made. -/
structure DriverState where
  epoch : Nat
  maxBlockId : Nat
  array : List (Nat × Nat)
  stores : List Nat
  waits : List Nat
  reclaimed : Nat
  deriving DecidableEq, Repr

/-- The prologue of the driver (default.rs lines 28-35): `epoch = 1`,
receive the first block id, `store_epoch(1)`, record the first pending
entry `(block_id, 1)`. -/
def driverInit (blockId : Nat) : DriverState :=
  ⟨1, blockId, [(blockId, 1)], [1], [], 0⟩

/-- One iteration of the driver loop (default.rs lines 38-62), on
receiving the notification `blockId`:
1. `epoch = epoch + 1`, then `store_epoch(epoch)`;
2. if `block_id > max_block_id`, append the pending entry
   `(block_id - max_block_id, epoch)` and update `max_block_id`;
3. if the pending list is nonempty and `epoch - array[0].1 >
   COLLECT_BLOCKS`, call `try_until_epoch(array[0].1)` (modelled from
   the spec: it only waits, returning once every registered
   participant is unpinned or has a snapshot `≥` the target, and
   changes no driver state), call `drop_bags_per_block` exactly
   `array[0].0` times, and remove the entry. -/
def driverStep (s : DriverState) (blockId : Nat) : DriverState :=
  let epoch := s.epoch + 1
  let s1 : DriverState := { s with epoch := epoch, stores := s.stores ++ [epoch] }
  let s2 : DriverState :=
    if blockId > s1.maxBlockId then
      { s1 with array := s1.array ++ [(blockId - s1.maxBlockId, epoch)],
                maxBlockId := blockId }
    else s1
  match s2.array with
  | [] => s2
  | (nums, e0) :: rest =>
    if epoch - e0 > COLLECT_BLOCKS then
      { s2 with waits := s2.waits ++ [e0],
                reclaimed := s2.reclaimed + nums,
                array := rest }
    else s2

/-- The driver run: prologue on the first received notification, then
one loop iteration per further notification. -/
def runDriver (first : Nat) (ids : List Nat) : DriverState :=
  ids.foldl driverStep (driverInit first)

theorem driverStep_epoch (s : DriverState) (b : Nat) :
    (driverStep s b).epoch = s.epoch + 1 := by
  simp only [driverStep]
  split <;> split <;> first | rfl | (split <;> rfl)

theorem driverStep_stores (s : DriverState) (b : Nat) :
    (driverStep s b).stores = s.stores ++ [s.epoch + 1] := by
  simp only [driverStep]
  split <;> split <;> first | rfl | (split <;> rfl)

theorem runDriver_append (first : Nat) (ids : List Nat) (b : Nat) :
    runDriver first (ids ++ [b]) = driverStep (runDriver first ids) b := by
  simp [runDriver]

/-- After consuming `1 + ids.length` notifications the driver's epoch
is `ids.length + 1` and the values it has passed to `store_epoch` are
exactly `1, 2, ..., ids.length + 1`, in order. -/
theorem runDriver_stores (first : Nat) (ids : List Nat) :
    (runDriver first ids).epoch = ids.length + 1 ∧
    (runDriver first ids).stores = List.range' 1 (ids.length + 1) := by
  induction ids using List.reverseRecOn with
  | nil => exact ⟨rfl, rfl⟩
  | append_singleton ids b ih =>
    obtain ⟨he, hs⟩ := ih
    rw [runDriver_append]
    refine ⟨?_, ?_⟩
    · rw [driverStep_epoch, he]
      simp
    · rw [driverStep_stores, hs, he]
      have h1 : (ids ++ [b]).length + 1 = (ids.length + 1) + 1 := by simp
      have h3 : List.range' 1 (ids.length + 1 + 1) =
          List.range' 1 (ids.length + 1) ++ [ids.length + 1 + 1] := by
        rw [List.range'_concat]
        simp
        omega
      rw [h1, h3]

/-! ### The epoch safety gate

An interleaved transition system for the whole collector.  The queue
is abstracted to what the safety claim observes: for each sealed block,
the set of guards that were held during a push into it.  The registry
side (`Global`/`Local`/`Guard`: pin snapshots and `try_until_epoch`)
is not under `src/`; it is modelled from the spec:
* entering a pin publishes the current global epoch as the
  participant's snapshot, which stays fixed until unpin;
* `try_until_epoch(target, guard)` returns only once every registered
  participant is unpinned or has a snapshot `≥ target`; the driver
  calls it before reclaiming with `drop_bags_per_block`, so the
  reclaim transition below carries exactly that condition (`hgate`) as
  its pin-related precondition, next to the driver's slack-window test
  (`hwin`, default.rs line 52).
The driver side follows default.rs: consuming a notification
increments the driver's epoch variable and stores it into the global
epoch cell (lines 39-41), and the epoch recorded for a block's pending
entry is the driver epoch at the iteration that consumed the block's
seal notification (lines 35 and 47). -/

/-- The lifecycle of one guard: never pinned yet, currently pinned
with the published snapshot, or released.  A released guard is never
pinned again (a fresh pin is a fresh guard). -/
inductive GuardSt where
  | unused
  | pinnedAt (snapshot : Nat)
  | released
  deriving DecidableEq, Repr

/-- One sealed garbage block, as the safety claim observes it:
`pushers` are the guards that were held during a push into the block,
`boundary` the epoch the driver recorded for the block's pending entry
(none until the driver consumes the block's seal notification), and
`reclaimed` whether `drop_bags_per_block` has destroyed it. -/
structure GBlock where
  pushers : List Nat
  boundary : Option Nat
  reclaimed : Bool
  deriving DecidableEq, Repr

/-- The interleaved system state: the global epoch cell, the driver's
local epoch variable, every guard's pin state, the sealed blocks in
seal order, and the guards that have pushed into the still-open tail
block. -/
structure SysState where
  globalEpoch : Nat
  dEpoch : Nat
  guards : Nat → GuardSt
  blocks : List GBlock
  openPushers : List Nat

/-- The initial state: epoch 0, nothing pinned, no blocks. -/
def initSys : SysState := ⟨0, 0, fun _ => .unused, [], []⟩

/-- The interleaved steps of clients and the driver. -/
inductive SysStep : SysState → SysState → Prop where
  /-- A client pins: the guard publishes the current global epoch as
  its snapshot. -/
  | pin (s : SysState) (g : Nat) (h : s.guards g = .unused) :
      SysStep s { s with guards := Function.update s.guards g (.pinnedAt s.globalEpoch) }
  /-- A client unpins: the guard is released. -/
  | unpin (s : SysState) (g : Nat) (e : Nat) (h : s.guards g = .pinnedAt e) :
      SysStep s { s with guards := Function.update s.guards g .released }
  /-- A pinned client pushes a garbage item into the open tail block. -/
  | pushGarbage (s : SysState) (g : Nat) (e : Nat) (h : s.guards g = .pinnedAt e) :
      SysStep s { s with openPushers := g :: s.openPushers }
  /-- The open block fills: it is sealed and its notification enters
  the channel (blocks are consumed by the driver in seal order). -/
  | sealOpen (s : SysState) :
      SysStep s { s with blocks := s.blocks ++ [⟨s.openPushers, none, false⟩],
                         openPushers := [] }
  /-- The driver consumes the seal notification of the oldest block
  without a recorded epoch: `epoch = epoch + 1`, `store_epoch(epoch)`,
  and the pending entry for the block records this epoch. -/
  | consume (s : SysState) (front : List GBlock) (B : GBlock) (rest : List GBlock)
      (hsplit : s.blocks = front ++ B :: rest) (hB : B.boundary = none)
      (hfront : ∀ C ∈ front, C.boundary.isSome) :
      SysStep s { s with dEpoch := s.dEpoch + 1,
                         globalEpoch := s.dEpoch + 1,
                         blocks := front ++ { B with boundary := some (s.dEpoch + 1) } :: rest }
  /-- The driver reclaims a block whose pending entry is older than the
  slack window, after `try_until_epoch(bd)` has returned: every pinned
  participant has a snapshot `≥ bd` (`hgate`, the sole pin-related
  precondition). -/
  | reclaim (s : SysState) (front : List GBlock) (B : GBlock) (rest : List GBlock) (bd : Nat)
      (hsplit : s.blocks = front ++ B :: rest) (hB : B.boundary = some bd)
      (hwin : s.dEpoch - bd > COLLECT_BLOCKS)
      (hgate : ∀ g e, s.guards g = .pinnedAt e → bd ≤ e) :
      SysStep s { s with blocks := front ++ { B with reclaimed := true } :: rest }

/-- The reachable states of the system. -/
inductive SysReach : SysState → Prop where
  | init : SysReach initSys
  | step {s s' : SysState} : SysReach s → SysStep s s' → SysReach s'

/-- No premature reclamation: no reclaimed block has a pusher whose
guard is still held. -/
def NoPrematureReclaim (s : SysState) : Prop :=
  ∀ B ∈ s.blocks, B.reclaimed = true →
    ∀ g ∈ B.pushers, ∀ e, s.guards g ≠ GuardSt.pinnedAt e

/-- The inductive invariant of the system. -/
structure SysInv (s : SysState) : Prop where
  global_le : s.globalEpoch ≤ s.dEpoch
  pinned_le : ∀ g e, s.guards g = .pinnedAt e → e ≤ s.globalEpoch
  pushers_active : ∀ B ∈ s.blocks, ∀ g ∈ B.pushers, s.guards g ≠ .unused
  open_active : ∀ g ∈ s.openPushers, s.guards g ≠ .unused
  boundary_gt : ∀ B ∈ s.blocks, ∀ bd, B.boundary = some bd →
    ∀ g ∈ B.pushers, ∀ e, s.guards g = .pinnedAt e → e < bd
  reclaimed_safe : NoPrematureReclaim s

theorem sysInv_init : SysInv initSys where
  global_le := Nat.le_refl 0
  pinned_le := fun g e h => by simp [initSys] at h
  pushers_active := by simp [initSys]
  open_active := by simp [initSys]
  boundary_gt := by simp [initSys]
  reclaimed_safe := by simp [initSys, NoPrematureReclaim]

theorem sysInv_step {s s' : SysState} (inv : SysInv s) (st : SysStep s s') : SysInv s' := by
  cases st with
  | pin g h =>
    refine ⟨inv.global_le, ?_, ?_, ?_, ?_, ?_⟩
    · intro g' e h'
      by_cases hg : g' = g
      · subst hg
        simp only [Function.update_same] at h'
        injection h' with he
        exact Nat.le_of_eq he.symm
      · simp only [Function.update_noteq hg] at h'
        exact inv.pinned_le g' e h'
    · intro B hB g' hg'
      by_cases hg : g' = g
      · subst hg
        simp [Function.update_same]
      · simp only [Function.update_noteq hg]
        exact inv.pushers_active B hB g' hg'
    · intro g' hg'
      by_cases hg : g' = g
      · subst hg
        simp [Function.update_same]
      · simp only [Function.update_noteq hg]
        exact inv.open_active g' hg'
    · intro B hB bd hbd g' hg' e h'
      by_cases hg : g' = g
      · subst hg
        exact absurd h (inv.pushers_active B hB g' hg')
      · simp only [Function.update_noteq hg] at h'
        exact inv.boundary_gt B hB bd hbd g' hg' e h'
    · intro B hB hrec g' hg' e h'
      by_cases hg : g' = g
      · subst hg
        exact (inv.pushers_active B hB g' hg') h
      · simp only [Function.update_noteq hg] at h'
        exact inv.reclaimed_safe B hB hrec g' hg' e h'
  | unpin g e h =>
    refine ⟨inv.global_le, ?_, ?_, ?_, ?_, ?_⟩
    · intro g' e' h'
      by_cases hg : g' = g
      · subst hg
        simp only [Function.update_same] at h'
        exact GuardSt.noConfusion h'
      · simp only [Function.update_noteq hg] at h'
        exact inv.pinned_le g' e' h'
    · intro B hB g' hg'
      by_cases hg : g' = g
      · subst hg
        simp [Function.update_same]
      · simp only [Function.update_noteq hg]
        exact inv.pushers_active B hB g' hg'
    · intro g' hg'
      by_cases hg : g' = g
      · subst hg
        simp [Function.update_same]
      · simp only [Function.update_noteq hg]
        exact inv.open_active g' hg'
    · intro B hB bd hbd g' hg' e' h'
      by_cases hg : g' = g
      · subst hg
        simp only [Function.update_same] at h'
        exact GuardSt.noConfusion h'
      · simp only [Function.update_noteq hg] at h'
        exact inv.boundary_gt B hB bd hbd g' hg' e' h'
    · intro B hB hrec g' hg' e' h'
      by_cases hg : g' = g
      · subst hg
        simp only [Function.update_same] at h'
        exact GuardSt.noConfusion h'
      · simp only [Function.update_noteq hg] at h'
        exact inv.reclaimed_safe B hB hrec g' hg' e' h'
  | pushGarbage g e h =>
    refine ⟨inv.global_le, inv.pinned_le, inv.pushers_active, ?_, inv.boundary_gt,
      inv.reclaimed_safe⟩
    intro g' hg'
    rcases List.mem_cons.mp hg' with rfl | hmem
    · intro habs
      have habs' : s.guards g' = GuardSt.unused := habs
      rw [h] at habs'
      cases habs'
    · exact inv.open_active g' hmem
  | sealOpen =>
    refine ⟨inv.global_le, inv.pinned_le, ?_, ?_, ?_, ?_⟩
    · intro B hB g' hg'
      rcases List.mem_append.mp hB with hmem | hmem
      · exact inv.pushers_active B hmem g' hg'
      · rcases List.mem_singleton.mp hmem with rfl
        exact inv.open_active g' hg'
    · intro g' hg'
      cases hg'
    · intro B hB bd hbd g' hg' e h'
      rcases List.mem_append.mp hB with hmem | hmem
      · exact inv.boundary_gt B hmem bd hbd g' hg' e h'
      · rcases List.mem_singleton.mp hmem with rfl
        simp at hbd
    · intro B hB hrec g' hg' e h'
      rcases List.mem_append.mp hB with hmem | hmem
      · exact inv.reclaimed_safe B hmem hrec g' hg' e h'
      · rcases List.mem_singleton.mp hmem with rfl
        simp at hrec
  | consume front B rest hsplit hB hfront =>
    have hBmem : B ∈ s.blocks := by
      rw [hsplit]
      exact List.mem_append_right _ (List.mem_cons_self _ _)
    have hOther : ∀ C, C ∈ front ∨ C ∈ rest → C ∈ s.blocks := by
      intro C hC
      rw [hsplit]
      rcases hC with hC | hC
      · exact List.mem_append_left _ hC
      · exact List.mem_append_right _ (List.mem_cons_of_mem _ hC)
    refine ⟨Nat.le_refl _, ?_, ?_, inv.open_active, ?_, ?_⟩
    · intro g' e' h'
      exact Nat.le_trans (inv.pinned_le g' e' h')
        (Nat.le_trans inv.global_le (Nat.le_succ _))
    · intro C hC g' hg'
      rcases List.mem_append.mp hC with hmem | hmem
      · exact inv.pushers_active C (hOther C (Or.inl hmem)) g' hg'
      · rcases List.mem_cons.mp hmem with rfl | hmem
        · exact inv.pushers_active B hBmem g' hg'
        · exact inv.pushers_active C (hOther C (Or.inr hmem)) g' hg'
    · intro C hC bd hbd g' hg' e' h'
      rcases List.mem_append.mp hC with hmem | hmem
      · exact inv.boundary_gt C (hOther C (Or.inl hmem)) bd hbd g' hg' e' h'
      · rcases List.mem_cons.mp hmem with rfl | hmem
        · have hbd' : some (s.dEpoch + 1) = some bd := hbd
          injection hbd' with hbd''
          have h1 : e' ≤ s.globalEpoch := inv.pinned_le g' e' h'
          have h2 : s.globalEpoch ≤ s.dEpoch := inv.global_le
          omega
        · exact inv.boundary_gt C (hOther C (Or.inr hmem)) bd hbd g' hg' e' h'
    · intro C hC hrec g' hg' e' h'
      rcases List.mem_append.mp hC with hmem | hmem
      · exact inv.reclaimed_safe C (hOther C (Or.inl hmem)) hrec g' hg' e' h'
      · rcases List.mem_cons.mp hmem with rfl | hmem
        · exact inv.reclaimed_safe B hBmem hrec g' hg' e' h'
        · exact inv.reclaimed_safe C (hOther C (Or.inr hmem)) hrec g' hg' e' h'
  | reclaim front B rest bd hsplit hB hwin hgate =>
    have hBmem : B ∈ s.blocks := by
      rw [hsplit]
      exact List.mem_append_right _ (List.mem_cons_self _ _)
    have hOther : ∀ C, C ∈ front ∨ C ∈ rest → C ∈ s.blocks := by
      intro C hC
      rw [hsplit]
      rcases hC with hC | hC
      · exact List.mem_append_left _ hC
      · exact List.mem_append_right _ (List.mem_cons_of_mem _ hC)
    refine ⟨inv.global_le, inv.pinned_le, ?_, inv.open_active, ?_, ?_⟩
    · intro C hC g' hg'
      rcases List.mem_append.mp hC with hmem | hmem
      · exact inv.pushers_active C (hOther C (Or.inl hmem)) g' hg'
      · rcases List.mem_cons.mp hmem with rfl | hmem
        · exact inv.pushers_active B hBmem g' hg'
        · exact inv.pushers_active C (hOther C (Or.inr hmem)) g' hg'
    · intro C hC bd' hbd g' hg' e' h'
      rcases List.mem_append.mp hC with hmem | hmem
      · exact inv.boundary_gt C (hOther C (Or.inl hmem)) bd' hbd g' hg' e' h'
      · rcases List.mem_cons.mp hmem with rfl | hmem
        · exact inv.boundary_gt B hBmem bd' hbd g' hg' e' h'
        · exact inv.boundary_gt C (hOther C (Or.inr hmem)) bd' hbd g' hg' e' h'
    · intro C hC hrec g' hg' e' h'
      rcases List.mem_append.mp hC with hmem | hmem
      · exact inv.reclaimed_safe C (hOther C (Or.inl hmem)) hrec g' hg' e' h'
      · rcases List.mem_cons.mp hmem with rfl | hmem
        · have h1 : e' < bd := inv.boundary_gt B hBmem bd hB g' hg' e' h'
          have h2 : bd ≤ e' := hgate g' e' h'
          omega
        · exact inv.reclaimed_safe C (hOther C (Or.inr hmem)) hrec g' hg' e' h'

/-- Every reachable state satisfies the invariant. -/
theorem sysInv_reach {s : SysState} (h : SysReach s) : SysInv s := by
  induction h with
  | init => exact sysInv_init
  | step _ st ih => exact sysInv_step ih st

/-! ### Claim theorems -/

/-- The queue state after pushing `ts` into a fresh queue. -/
def afterPushes (T : Type) (ts : List T) : Queue T := (pushAll (Queue.new T) ts).1

theorem afterPushes_eq (T : Type) (ts : List T) :
    afterPushes T ts = ⟨mkBlocks 0 ts, ts.length⟩ := by
  rw [afterPushes, pushAll_new]

/-- C9: `starting()` is the unique sentinel `usize::max_value()`,
`zeroing()` is `0` and is distinct from the sentinel, and
`is_pinned(e)` holds exactly when `e` is not the sentinel (so the
sentinel is the unique unpinned value). -/
theorem claim_C9_epoch_values :
    Epoch.starting.data = USIZE_MAX ∧
    Epoch.zeroing.data = 0 ∧
    Epoch.zeroing ≠ Epoch.starting ∧
    (∀ e : Epoch, e.is_pinned = true ↔ e ≠ Epoch.starting) ∧
    (∀ e : Epoch, e.is_pinned = false ↔ e = Epoch.starting) := by
  refine ⟨rfl, rfl, ?_, ?_, ?_⟩
  · intro habs
    have : (0 : Nat) = USIZE_MAX := congrArg Epoch.data habs
    simp [USIZE_MAX] at this
  · intro e
    obtain ⟨d⟩ := e
    simp [Epoch.is_pinned, Epoch.starting, Epoch.mk.injEq]
  · intro e
    obtain ⟨d⟩ := e
    simp [Epoch.is_pinned, Epoch.starting, Epoch.mk.injEq]

/-- C2: after full teardown (`drop_all_blocks` iterated to the tail,
then the `Drop` impl freeing the sentinel block) of a queue holding the
pushes `ts`, each pushed value is destroyed exactly as often as it was
pushed — once per push, no double destruction, no leak — also when
`ts.length` is not a multiple of `BLOCK_CAP`. -/
theorem claim_C2_no_double_no_leak (T : Type) [DecidableEq T] (ts : List T) (t : T) :
    (realCells (queueDrop (afterPushes T ts))).count t = ts.count t ∧
    (realCells (queueDrop (afterPushes T ts))).length = ts.length := by
  rw [afterPushes, queueDrop_real]
  exact ⟨rfl, rfl⟩

/-- C4: teardown consumption destroys the pushed values of a single
producer in exactly push order, and a `drop_bags_per_block` on a queue
holding at least one full block destroys exactly the first
`BLOCK_CAP` pushed values, in push order. -/
theorem claim_C4_fifo (T : Type) (ts : List T) :
    realCells (queueDrop (afterPushes T ts)) = ts ∧
    (BLOCK_CAP ≤ ts.length →
      realCells ((drop_bags_per_block (afterPushes T ts)).2) = ts.take BLOCK_CAP) := by
  refine ⟨by rw [afterPushes, queueDrop_real], ?_⟩
  intro hle
  rw [afterPushes_eq, mkBlocks_big 0 ts (by omega)]
  simp only [drop_bags_per_block]
  exact realCells_mkSlots (ts.take BLOCK_CAP)

/-- C3: pushing exactly `BLOCK_CAP * k` values sends exactly `k`
block-fill notifications with the strictly increasing ids
`1, ..., k`; a notification is sent by precisely the push that writes
a block's final slot (the push numbered a multiple of `BLOCK_CAP`,
with id `new_index / BLOCK_CAP`); and `BLOCK_CAP` pushes send exactly
the one notification `1`, immediately after the last of them. -/
theorem claim_C3_notifications (T : Type) (k : Nat) (ts : List T)
    (h : ts.length = BLOCK_CAP * k) :
    (pushAll (Queue.new T) ts).2 = (List.range k).map (fun i => i + 1) ∧
    ((pushAll (Queue.new T) ts).2).length = k ∧
    ((pushAll (Queue.new T) ts).2).Pairwise (· < ·) ∧
    (∀ (us : List T) (t : T),
       (push (afterPushes T us) t).2 =
         if (us.length + 1) % BLOCK_CAP = 0 then some ((us.length + 1) / BLOCK_CAP)
         else none) ∧
    (pushAll (Queue.new Nat) (List.range BLOCK_CAP)).2 = [1] := by
  have hdiv : ts.length / BLOCK_CAP = k := by
    rw [h]
    exact Nat.mul_div_cancel_left k (by simp [BLOCK_CAP])
  refine ⟨?_, ?_, ?_, ?_, ?_⟩
  · rw [pushAll_new, hdiv]
  · rw [pushAll_new, hdiv]
    simp
  · rw [pushAll_new]
    refine List.Pairwise.map _ ?_ (List.pairwise_lt_range _)
    intro a b hab
    omega
  · intro us t
    have hpush := push_mkBlocks us 0 t
    rw [Nat.zero_add] at hpush
    rw [afterPushes_eq, hpush]
  · rw [pushAll_new]
    have h1 : (List.range BLOCK_CAP).length / BLOCK_CAP = 1 := by
      simp [BLOCK_CAP]
    rw [h1]
    rfl

/-- Witness for C3 at 64 pushes: exactly the two notifications 1, 2. -/
theorem claim_C3_witness :
    (pushAll (Queue.new Nat) (List.range 64)).2 = (List.range 2).map (fun i => i + 1) :=
  (claim_C3_notifications Nat 2 (List.range 64) (by simp [BLOCK_CAP])).1

/-- C7: `drop_bags_per_block` destroys exactly the `BLOCK_CAP` slot
contents of the head block (all of them, in slot order), advances the
head to the block's successor chain (removing only the vacated block),
and leaves the tail index and every other block unchanged; on a queue
holding the pushes `ts` with at least one full block, the destroyed
cells are exactly the slots of the first block, which hold the first
`BLOCK_CAP` pushed values. -/
theorem claim_C7_drop_bags_per_block (T : Type) (ts : List T)
    (h : BLOCK_CAP ≤ ts.length) :
    (∀ (q : Queue T) (hd : Block T) (rest : List (Block T)), q.blocks = hd :: rest →
       drop_bags_per_block q = (⟨rest, q.tailIndex⟩, hd.slots)) ∧
    (drop_bags_per_block (afterPushes T ts)).2 = mkSlots (ts.take BLOCK_CAP) ∧
    (drop_bags_per_block (afterPushes T ts)).1.blocks = (afterPushes T ts).blocks.tail ∧
    (drop_bags_per_block (afterPushes T ts)).1.tailIndex = (afterPushes T ts).tailIndex := by
  refine ⟨?_, ?_, ?_, ?_⟩
  · intro q hd rest hq
    obtain ⟨bs, i⟩ := q
    simp only at hq
    subst hq
    rfl
  · rw [afterPushes_eq, mkBlocks_big 0 ts (by omega)]
    rfl
  · rw [afterPushes_eq, mkBlocks_big 0 ts (by omega)]
    rfl
  · rw [afterPushes_eq, mkBlocks_big 0 ts (by omega)]
    rfl

/-- Witness for C7 at 64 pushes: the destroyed cells are the first
block's 32 slots. -/
theorem claim_C7_witness :
    (drop_bags_per_block (afterPushes Nat (List.range 64))).2 =
      mkSlots ((List.range 64).take BLOCK_CAP) :=
  (claim_C7_drop_bags_per_block Nat (List.range 64) (by simp [BLOCK_CAP])).2.1

/-- C10 (implicit): `drop_bags_per_block` and each `drop_all_blocks`
iteration destroy all `BLOCK_CAP` slots of the head block without
consulting the head or tail indices (the destroyed cells do not depend
on the index fields at all); on a queue whose head block holds only
`r < BLOCK_CAP` pushed values, `BLOCK_CAP` cells are destroyed of
which `BLOCK_CAP - r` are zeroed cells that were never pushed. -/
theorem claim_C10_unconditional_destruction :
    (∀ (bs : List (Block Nat)) (i i' : Nat),
       (drop_bags_per_block (⟨bs, i⟩ : Queue Nat)).2 =
         (drop_bags_per_block (⟨bs, i'⟩ : Queue Nat)).2) ∧
    (∀ (bs : List (Block Nat)) (i i' : Nat),
       (drop_all_blocks (⟨bs, i⟩ : Queue Nat)).2 =
         (drop_all_blocks (⟨bs, i'⟩ : Queue Nat)).2) ∧
    (∀ r : Nat, 0 < r → r < BLOCK_CAP →
       (drop_bags_per_block (afterPushes Nat (List.range r))).2.length = BLOCK_CAP ∧
       (drop_bags_per_block (afterPushes Nat (List.range r))).2.count none =
         BLOCK_CAP - r ∧
       (drop_bags_per_block (afterPushes Nat (List.range r))).2.count none ≠ 0) := by
  refine ⟨?_, ?_, ?_⟩
  · intro bs i i'
    cases bs <;> rfl
  · intro bs i i'
    rfl
  · intro r h1 h2
    rw [afterPushes_eq, mkBlocks_small 0 (List.range r) (by simp; omega)]
    simp only [drop_bags_per_block, mkSlots, List.length_range]
    refine ⟨?_, ?_, ?_⟩
    · simp
      omega
    · rw [List.count_append]
      have hz : ((List.range r).map some).count none = 0 := by
        rw [List.count_eq_zero]
        simp
      rw [hz, List.count_replicate]
      simp
    · rw [List.count_append]
      have hz : ((List.range r).map some).count none = 0 := by
        rw [List.count_eq_zero]
        simp
      rw [hz, List.count_replicate]
      simp
      omega

/-- Counterexample to C6 as stated: at a loaded tail view whose offset
is `BLOCK_CAP + 1 > BLOCK_CAP` (strictly exceeding the capacity), the
push loop iteration installs nothing and leaves the queue unchanged:
the `else if offset == BLOCK_CAP` arm (queue.rs line 185) is the only
install-and-retry arm, and it does not fire for offsets above
`BLOCK_CAP`. -/
theorem claim_C6_counterexample :
    (BLOCK_CAP + 1) - (Block.new Nat 0).start_index > BLOCK_CAP ∧
    pushIter (⟨[Block.new Nat 0], BLOCK_CAP + 1⟩ : Queue Nat) 0 =
      IterResult.retry ⟨[Block.new Nat 0], BLOCK_CAP + 1⟩ ∧
    (⟨[Block.new Nat 0], BLOCK_CAP + 1⟩ : Queue Nat).blocks.length = 1 := by
  refine ⟨by decide, rfl, rfl⟩

/-- C6 (amended): in a push loop iteration whose loaded tail block is
the last of the chain, if the offset EQUALS the capacity
`BLOCK_CAP` the iteration installs the successor block (appending a
fresh block after the tail, first writer wins) and retries; if the
offset strictly exceeds `BLOCK_CAP` the iteration installs nothing
and retries with the queue unchanged (progress then relies on the next
iteration reloading the advanced tail pointer). -/
theorem claim_C6_amended (T : Type) (q : Queue T) (t : T) (tail : Block T)
    (hlast : q.blocks.getLast? = some tail) :
    (q.tailIndex - tail.start_index = BLOCK_CAP →
       pushIter q t = IterResult.retry
         ⟨q.blocks ++ [Block.new T (tail.start_index + BLOCK_CAP)], q.tailIndex⟩) ∧
    (q.tailIndex - tail.start_index > BLOCK_CAP →
       pushIter q t = IterResult.retry q) := by
  constructor
  · intro h32
    simp only [pushIter, hlast, h32, Nat.lt_irrefl, if_false, if_pos rfl,
      installNextBlock, Option.all_some, decide_eq_true_eq]
    simp
  · intro hgt
    have h1 : ¬ (q.tailIndex - tail.start_index < BLOCK_CAP) := by omega
    have h2 : ¬ (q.tailIndex - tail.start_index = BLOCK_CAP) := by omega
    simp only [pushIter, hlast, if_neg h1, if_neg h2]

/-- Witness for the amended C6: at offset exactly `BLOCK_CAP` the
iteration appends the successor block and retries. -/
theorem claim_C6_witness :
    pushIter (⟨[Block.new Nat 0], BLOCK_CAP⟩ : Queue Nat) 5 =
      IterResult.retry
        ⟨[Block.new Nat 0] ++ [Block.new Nat ((Block.new Nat 0).start_index + BLOCK_CAP)],
         BLOCK_CAP⟩ :=
  (claim_C6_amended Nat ⟨[Block.new Nat 0], BLOCK_CAP⟩ 5 (Block.new Nat 0) rfl).1 (by decide)

/-- C5: whenever the driver's oldest pending entry `(c, b)` is older
than the `COLLECT_BLOCKS = 16` epoch slack window (i.e. the new epoch
`s.epoch + 1` satisfies `epoch - b > 16`), the loop iteration calls
`try_until_epoch b`, reclaims exactly `c` blocks via
`drop_bags_per_block`, and drops the entry; otherwise it waits for,
reclaims and drops nothing.  Consequently, with the boundary entry
recorded at epoch 1, after 16 further epoch advancements (epoch 17)
nothing is reclaimed, and after one more (epoch 18) exactly that
entry's one block is reclaimed, after a `try_until_epoch 1` wait. -/
theorem claim_C5_driver_slack (s : DriverState) (c b : Nat) (rest : List (Nat × Nat))
    (blockId : Nat) (h : s.array = (c, b) :: rest) :
    (s.epoch + 1 - b > COLLECT_BLOCKS →
       (driverStep s blockId).waits = s.waits ++ [b] ∧
       (driverStep s blockId).reclaimed = s.reclaimed + c ∧
       (driverStep s blockId).array =
         (if blockId > s.maxBlockId then rest ++ [(blockId - s.maxBlockId, s.epoch + 1)]
          else rest)) ∧
    (¬ (s.epoch + 1 - b > COLLECT_BLOCKS) →
       (driverStep s blockId).waits = s.waits ∧
       (driverStep s blockId).reclaimed = s.reclaimed ∧
       (driverStep s blockId).array =
         (c, b) :: (if blockId > s.maxBlockId then
           rest ++ [(blockId - s.maxBlockId, s.epoch + 1)] else rest)) ∧
    (runDriver 1 (List.range' 2 16)).epoch = 17 ∧
    (runDriver 1 (List.range' 2 16)).reclaimed = 0 ∧
    (runDriver 1 (List.range' 2 17)).epoch = 18 ∧
    (runDriver 1 (List.range' 2 17)).reclaimed = 1 ∧
    (runDriver 1 (List.range' 2 17)).waits = [1] := by
  refine ⟨?_, ?_, by decide, by decide, by decide, by decide, by decide⟩
  · intro hw
    by_cases hid : blockId > s.maxBlockId
    · simp only [driverStep, hid, if_true, h, List.cons_append, if_pos hw]
      exact ⟨trivial, trivial, trivial⟩
    · simp only [driverStep, hid, if_false, h, if_pos hw]
      exact ⟨trivial, trivial, trivial⟩
  · intro hw
    by_cases hid : blockId > s.maxBlockId
    · simp only [driverStep, hid, if_true, h, List.cons_append, if_neg hw]
      exact ⟨trivial, trivial, trivial⟩
    · simp only [driverStep, hid, if_false, h, if_neg hw]
      exact ⟨trivial, trivial, trivial⟩

/-- Witness for C5: the driver scenario — boundary at epoch 1, first
reclaim (of exactly one block) on reaching epoch 18. -/
theorem claim_C5_witness : (runDriver 1 (List.range' 2 17)).reclaimed = 1 :=
  (claim_C5_driver_slack (driverInit 1) 1 1 [] 2 rfl).2.2.2.2.2.1

/-- Values of a `range'` list by position. -/
theorem getD_range' (a n i : Nat) (h : i < n) :
    (List.range' a n).getD i 0 = a + i := by
  rw [List.getD_eq_getElem _ _ (by simp [h])]
  simp [List.getElem_range']

/-- C8: the driver stores, per consumed notification, an epoch exactly
one greater than the previously stored one (the stored trace is
`1, 2, 3, ...`), and the trace of stored values is monotone, so any
observer's successive loads of the global epoch cell (which read a
later or equal position of the trace) never return a decreasing
value. -/
theorem claim_C8_epoch_monotonic (first : Nat) (ids : List Nat) :
    (runDriver first ids).stores = List.range' 1 (ids.length + 1) ∧
    (∀ i, i + 1 < (runDriver first ids).stores.length →
       (runDriver first ids).stores.getD (i + 1) 0 =
         (runDriver first ids).stores.getD i 0 + 1) ∧
    (∀ i j, i ≤ j → j < (runDriver first ids).stores.length →
       (runDriver first ids).stores.getD i 0 ≤ (runDriver first ids).stores.getD j 0) := by
  obtain ⟨he, hs⟩ := runDriver_stores first ids
  refine ⟨hs, ?_, ?_⟩
  · intro i hlt
    rw [hs] at hlt ⊢
    simp only [List.length_range'] at hlt
    rw [getD_range' 1 _ _ hlt, getD_range' 1 _ _ (by omega)]
    omega
  · intro i j hij hlt
    rw [hs] at hlt ⊢
    simp only [List.length_range'] at hlt
    rw [getD_range' 1 _ _ hlt, getD_range' 1 _ _ (by omega)]
    omega

/-- C1: in every reachable state of the interleaved system, no garbage
block that contains an item pushed while some guard `g` was held is
reclaimed while `g` is still held: the reclaim transition is gated
solely by the driver's `try_until_epoch` wait (every pinned
participant's snapshot is at least the block's recorded epoch), and
that gate suffices, because every pusher of a block was pinned with a
snapshot strictly below the epoch the driver later records for the
block. -/
theorem claim_C1_no_premature_reclamation (s : SysState) (h : SysReach s) :
    NoPrematureReclaim s :=
  (sysInv_reach h).reclaimed_safe

/-- A concrete reachable state for the C1 witness: guard 0 pins at
epoch 0, pushes into the open block, the block seals, the driver
consumes its notification (recording epoch 1), and guard 0 unpins. -/
def demoState : SysState :=
  ⟨1, 1,
   Function.update (Function.update (fun _ => GuardSt.unused) 0 (GuardSt.pinnedAt 0))
     0 GuardSt.released,
   [⟨[0], some 1, false⟩], []⟩

/-- Witness for C1 on the concrete five-step execution. -/
theorem claim_C1_witness : NoPrematureReclaim demoState :=
  claim_C1_no_premature_reclamation demoState
    (SysReach.step
      (SysReach.step
        (SysReach.step
          (SysReach.step
            (SysReach.step SysReach.init (SysStep.pin initSys 0 rfl))
            (SysStep.pushGarbage _ 0 0 (by simp [initSys])))
          (SysStep.sealOpen _))
        (SysStep.consume _ [] ⟨[0], none, false⟩ [] rfl rfl (by simp)))
      (SysStep.unpin _ 0 0 (by simp [initSys])))

end Crossbeam

